import Mathlib

/-!
Verification of `scripts/replace-console-with-logger.py`.

The script rewrites TypeScript sources: every occurrence of `console.X(`
(for X among error/warn/log/debug/info) is replaced by `logger.X(`, a
logger import is inserted when needed, and files are discovered by an
`os.walk` over `<root>/src`.

Texts are modelled as `List Char`.  `re.subn` with the literal patterns of
`CONSOLE_PATTERNS` is a left-to-right find/replace of a fixed substring;
`subn` below implements exactly that scan (fuel-indexed to keep the
definition structurally recursive, with `subn` instantiating the fuel at
the length of the text, which the congruence lemma shows is enough).
-/

/-- One left-to-right pass replacing every non-overlapping occurrence of
`p` by `r`, counting replacements; `fuel` bounds the recursion depth. -/
def subnF (p r : List Char) : Nat → List Char → List Char × Nat
  | 0, s => (s, 0)
  | _ + 1, [] => ([], 0)
  | f + 1, c :: t =>
    if p <+: (c :: t) then
      (r ++ (subnF p r f (List.drop p.length (c :: t))).1,
        (subnF p r f (List.drop p.length (c :: t))).2 + 1)
    else
      (c :: (subnF p r f t).1, (subnF p r f t).2)

/-- Model of `re.subn(p, r, s)` for a literal pattern `p`: the replaced text and the
number of replacements made. -/
def subn (p r s : List Char) : List Char × Nat := subnF p r s.length s

theorem subnF_succ_cons (p r : List Char) (f : Nat) (c : Char) (t : List Char) :
    subnF p r (f + 1) (c :: t) =
      if p <+: (c :: t) then
        (r ++ (subnF p r f (List.drop p.length (c :: t))).1,
          (subnF p r f (List.drop p.length (c :: t))).2 + 1)
      else
        (c :: (subnF p r f t).1, (subnF p r f t).2) := rfl

theorem subnF_eq_subn (p r : List Char) (hp : p ≠ []) :
    ∀ f s, s.length ≤ f → subnF p r f s = subn p r s := by
  intro f
  induction f using Nat.strong_induction_on with
  | _ f ih =>
    intro s hs
    cases f with
    | zero =>
      have : s = [] := List.length_eq_zero.mp (Nat.le_zero.mp hs)
      subst this; rfl
    | succ f =>
      cases s with
      | nil => rfl
      | cons c t =>
        have hplen : 0 < p.length := List.length_pos.mpr hp
        have hlen : (List.drop p.length (c :: t)).length ≤ t.length := by
          simp only [List.length_drop, List.length_cons]
          omega
        have ht : t.length ≤ f := by
          simpa [List.length_cons] using hs
        show subnF p r (f + 1) (c :: t) = subnF p r ((c :: t).length) (c :: t)
        rw [List.length_cons, subnF_succ_cons, subnF_succ_cons]
        by_cases hm : p <+: (c :: t)
        · rw [if_pos hm, if_pos hm,
            ih f (Nat.lt_succ_self f) _ (le_trans hlen ht),
            ih t.length (Nat.lt_succ_of_le ht) _ hlen]
        · rw [if_neg hm, if_neg hm, ih f (Nat.lt_succ_self f) t ht,
            ih t.length (Nat.lt_succ_of_le ht) t (le_refl _)]

theorem subn_nil (p r : List Char) : subn p r [] = ([], 0) := rfl

theorem subn_append (p r : List Char) (hp : p ≠ []) (u : List Char) :
    subn p r (p ++ u) = (r ++ (subn p r u).1, (subn p r u).2 + 1) := by
  cases p with
  | nil => exact absurd rfl hp
  | cons ph pt =>
    have hpre : (ph :: pt) <+: (ph :: pt) ++ u := List.prefix_append _ _
    have hd : List.drop (ph :: pt).length ((ph :: pt) ++ u) = u :=
      List.drop_left _ _
    show subnF (ph :: pt) r ((ph :: pt) ++ u).length ((ph :: pt) ++ u) = _
    simp only [List.cons_append, List.length_cons] at hd ⊢
    rw [subnF_succ_cons, if_pos (by simp)]
    simp only [List.length_cons]
    rw [hd, subnF_eq_subn (ph :: pt) r (List.cons_ne_nil ph pt)
      (pt ++ u).length u (by simp)]

theorem subn_cons_nomatch (p r : List Char) (hp : p ≠ []) (c : Char)
    (t : List Char) (h : ¬ p <+: (c :: t)) :
    subn p r (c :: t) = (c :: (subn p r t).1, (subn p r t).2) := by
  show subnF p r _ _ = _
  rw [List.length_cons, subnF_succ_cons, if_neg h,
    subnF_eq_subn p r hp t.length t (le_refl _)]

/-- Number of positions of `s` at which the pattern `p` matches (for a
nonempty `p` this is the number of occurrences of `p` in `s`, counting
overlapping ones). -/
def countOccAll (p : List Char) : List Char → Nat
  | [] => 0
  | c :: t => (if p <+: (c :: t) then 1 else 0) + countOccAll p t

theorem pre_append_or {x a b : List Char} (h : x <+: a ++ b) :
    x <+: a ∨ a <+: x :=
  List.prefix_or_prefix_of_prefix h ( List.prefix_append a b)

theorem countOccAll_append_invisible (q a : List Char)
    (ha : ∀ v ∈ a.tails, v ≠ [] → ¬ q <+: v ∧ ¬ v <+: q) :
    ∀ x, countOccAll q (a ++ x) = countOccAll q x := by
  induction a with
  | nil => intro x; rfl
  | cons c a' iha =>
    intro x
    have hmem : (c :: a') ∈ (c :: a').tails :=
      (List.mem_tails _ _).mpr (List.suffix_refl _)
    have hnot : ¬ q <+: (c :: a') ++ x := by
      intro hq
      rcases pre_append_or hq with h | h
      · exact (ha _ hmem (List.cons_ne_nil c a')).1 h
      · exact (ha _ hmem (List.cons_ne_nil c a')).2 h
    show (if q <+: (c :: (a' ++ x)) then 1 else 0) + countOccAll q (a' ++ x)
        = countOccAll q x
    rw [if_neg (by simpa using hnot)]
    rw [iha (fun v hv hvne => ha v
      ((List.mem_tails _ _).mpr
        (((List.mem_tails _ _).mp hv).trans (List.suffix_cons c a'))) hvne)]
    simp

theorem subn_fix_of_zero (p r : List Char) (hp : p ≠ []) :
    ∀ n s, s.length ≤ n → (subn p r s).2 = 0 → (subn p r s).1 = s := by
  intro n
  induction n with
  | zero =>
    intro s hs _
    have hsnil : s = [] := List.length_eq_zero.mp (Nat.le_zero.mp hs)
    subst hsnil; rfl
  | succ n ih =>
    intro s hs h0
    cases s with
    | nil => rfl
    | cons c t =>
      by_cases hm : p <+: (c :: t)
      · obtain ⟨u, hu⟩ := hm
        rw [← hu, subn_append p r hp u] at h0
        simp at h0
      · rw [subn_cons_nomatch p r hp c t hm] at h0 ⊢
        have ht : t.length ≤ n := by simpa using hs
        exact congrArg (List.cons c) (ih t ht h0)

theorem subn_length (p r : List Char) (hp : p ≠ [])
    (hlen : p.length = r.length + 1) :
    ∀ n s, s.length ≤ n → (subn p r s).1.length + (subn p r s).2 = s.length := by
  intro n
  induction n with
  | zero =>
    intro s hs
    have hsnil : s = [] := List.length_eq_zero.mp (Nat.le_zero.mp hs)
    subst hsnil; rfl
  | succ n ih =>
    intro s hs
    cases s with
    | nil => rfl
    | cons c t =>
      have hplen : 0 < p.length := List.length_pos.mpr hp
      by_cases hm : p <+: (c :: t)
      · obtain ⟨u, hu⟩ := hm
        have hlu : p.length + u.length = t.length + 1 := by
          simpa using congrArg List.length hu
        have hsl : t.length + 1 ≤ n + 1 := by simpa using hs
        have hul : u.length ≤ n := by omega
        rw [← hu, subn_append p r hp u]
        have IH := ih u hul
        simp only [List.length_append]
        omega
      · rw [subn_cons_nomatch p r hp c t hm]
        have ht : t.length ≤ n := by simpa using hs
        have IH := ih t ht
        simp only [List.length_cons]
        omega

theorem countOccAll_self_append (p : List Char) (hp : p ≠ [])
    (hself : ∀ v ∈ p.tails, v ≠ [] → v ≠ p → ¬ v <+: p) (u : List Char) :
    countOccAll p (p ++ u) = 1 + countOccAll p u := by
  cases p with
  | nil => exact absurd rfl hp
  | cons ph pt =>
    show (if (ph :: pt) <+: (ph :: (pt ++ u)) then 1 else 0)
        + countOccAll (ph :: pt) (pt ++ u) = 1 + countOccAll (ph :: pt) u
    rw [if_pos ⟨u, by simp⟩]
    congr 1
    apply countOccAll_append_invisible (ph :: pt) pt ?_ u
    intro v hv hvne
    have hvs : v <:+ pt := (List.mem_tails _ _).mp hv
    have hvp : v <:+ ph :: pt := hvs.trans (List.suffix_cons ph pt)
    have hvlt : v.length < (ph :: pt).length :=
      lt_of_le_of_lt (List.IsSuffix.length_le hvs) (by simp)
    constructor
    · intro hq
      have := List.IsPrefix.length_le hq
      omega
    · intro hvq
      refine hself v ((List.mem_tails _ _).mpr hvp) hvne ?_ hvq
      intro he
      rw [he] at hvlt
      omega

theorem subn_count_eq (p r : List Char) (hp : p ≠ [])
    (hself : ∀ v ∈ p.tails, v ≠ [] → v ≠ p → ¬ v <+: p) :
    ∀ n s, s.length ≤ n → (subn p r s).2 = countOccAll p s := by
  intro n
  induction n with
  | zero =>
    intro s hs
    have hsnil : s = [] := List.length_eq_zero.mp (Nat.le_zero.mp hs)
    subst hsnil; rfl
  | succ n ih =>
    intro s hs
    cases s with
    | nil => rfl
    | cons c t =>
      have hplen : 0 < p.length := List.length_pos.mpr hp
      by_cases hm : p <+: (c :: t)
      · obtain ⟨u, hu⟩ := hm
        have hlu : p.length + u.length = t.length + 1 := by
          simpa using congrArg List.length hu
        have hsl : t.length + 1 ≤ n + 1 := by simpa using hs
        have hul : u.length ≤ n := by omega
        rw [← hu, subn_append p r hp u, countOccAll_self_append p hp hself u]
        have IH := ih u hul
        simp only
        omega
      · rw [subn_cons_nomatch p r hp c t hm]
        have ht : t.length ≤ n := by simpa using hs
        show (subn p r t).2 = (if p <+: (c :: t) then 1 else 0) + countOccAll p t
        rw [if_neg hm, ih t ht]
        omega

theorem subn_preserve (p r q : List Char) (hp : p ≠ [])
    (h1 : ∀ v ∈ r.tails, v ≠ [] → ¬ q <+: v ∧ ¬ v <+: q)
    (h2 : ∀ v ∈ p.tails, v ≠ [] → ¬ q <+: v ∧ ¬ v <+: q)
    (h3 : ∀ w ∈ q.tails, w ≠ [] →
      ¬ w <+: r ∧ ¬ r <+: w ∧ ¬ w <+: p ∧ ¬ p <+: w) :
    ∀ n s, s.length ≤ n →
      countOccAll q (subn p r s).1 = countOccAll q s ∧
      ∀ w, w <:+ q → (w <+: (subn p r s).1 ↔ w <+: s) := by
  intro n
  induction n with
  | zero =>
    intro s hs
    have hsnil : s = [] := List.length_eq_zero.mp (Nat.le_zero.mp hs)
    subst hsnil
    exact ⟨rfl, fun w _ => Iff.rfl⟩
  | succ n ih =>
    intro s hs
    cases s with
    | nil => exact ⟨rfl, fun w _ => Iff.rfl⟩
    | cons c t =>
      have hplen : 0 < p.length := List.length_pos.mpr hp
      by_cases hm : p <+: (c :: t)
      · obtain ⟨u, hu⟩ := hm
        have hlu : p.length + u.length = t.length + 1 := by
          simpa using congrArg List.length hu
        have hsl : t.length + 1 ≤ n + 1 := by simpa using hs
        have hul : u.length ≤ n := by omega
        rw [← hu, subn_append p r hp u]
        have IH := ih u hul
        constructor
        · show countOccAll q (r ++ (subn p r u).1) = countOccAll q (p ++ u)
          rw [countOccAll_append_invisible q r h1, IH.1,
            countOccAll_append_invisible q p h2]
        · intro w hw
          by_cases hwnil : w = []
          · subst hwnil; simp
          · have h3w := h3 w ((List.mem_tails _ _).mpr hw) hwnil
            refine iff_of_false (fun hc => ?_) (fun hc => ?_)
            · rcases pre_append_or hc with h | h
              · exact h3w.1 h
              · exact h3w.2.1 h
            · rcases pre_append_or hc with h | h
              · exact h3w.2.2.1 h
              · exact h3w.2.2.2 h
      · rw [subn_cons_nomatch p r hp c t hm]
        have ht : t.length ≤ n := by simpa using hs
        have IH := ih t ht
        have key : ∀ w, w <:+ q →
            (w <+: c :: (subn p r t).1 ↔ w <+: c :: t) := by
          intro w hw
          cases w with
          | nil => simp
          | cons wh wt =>
            rw [ List.cons_prefix_cons, List.cons_prefix_cons]
            have hwt : wt <:+ q := (List.suffix_cons wh wt).trans hw
            rw [IH.2 wt hwt]
        constructor
        · show (if q <+: c :: (subn p r t).1 then 1 else 0)
              + countOccAll q (subn p r t).1
            = (if q <+: (c :: t) then 1 else 0) + countOccAll q t
          rw [IH.1]
          congr 1
          by_cases hq : q <+: (c :: t)
          · rw [if_pos hq, if_pos ((key q (List.suffix_refl q)).mpr hq)]
          · rw [if_neg hq,
              if_neg (fun hc => hq ((key q (List.suffix_refl q)).mp hc))]
        · exact key

theorem subn_clear (p r : List Char) (hp : p ≠ [])
    (h1 : ∀ v ∈ r.tails, v ≠ [] → ¬ p <+: v ∧ ¬ v <+: p)
    (h3 : ∀ w ∈ p.tails, w ≠ [] → w ≠ p →
      ¬ w <+: r ∧ ¬ r <+: w ∧ ¬ w <+: p) :
    ∀ n s, s.length ≤ n →
      countOccAll p (subn p r s).1 = 0 ∧
      ∀ w, w <:+ p → w ≠ p → (w <+: (subn p r s).1 ↔ w <+: s) := by
  intro n
  induction n with
  | zero =>
    intro s hs
    have hsnil : s = [] := List.length_eq_zero.mp (Nat.le_zero.mp hs)
    subst hsnil
    exact ⟨rfl, fun w _ _ => Iff.rfl⟩
  | succ n ih =>
    intro s hs
    cases s with
    | nil => exact ⟨rfl, fun w _ _ => Iff.rfl⟩
    | cons c t =>
      have hplen : 0 < p.length := List.length_pos.mpr hp
      by_cases hm : p <+: (c :: t)
      · obtain ⟨u, hu⟩ := hm
        have hlu : p.length + u.length = t.length + 1 := by
          simpa using congrArg List.length hu
        have hsl : t.length + 1 ≤ n + 1 := by simpa using hs
        have hul : u.length ≤ n := by omega
        rw [← hu, subn_append p r hp u]
        have IH := ih u hul
        constructor
        · show countOccAll p (r ++ (subn p r u).1) = 0
          rw [countOccAll_append_invisible p r h1, IH.1]
        · intro w hw hwne
          by_cases hwnil : w = []
          · subst hwnil; simp
          · have h3w := h3 w ((List.mem_tails _ _).mpr hw) hwnil hwne
            have hwlen : w.length ≤ p.length := List.IsSuffix.length_le hw
            have hwlt : w.length < p.length := by
              rcases Nat.lt_or_ge w.length p.length with h | h
              · exact h
              · exact absurd (List.IsSuffix.eq_of_length hw (by omega)) hwne
            refine iff_of_false (fun hc => ?_) (fun hc => ?_)
            · rcases pre_append_or hc with h | h
              · exact h3w.1 h
              · exact h3w.2.1 h
            · rcases pre_append_or hc with h | h
              · exact h3w.2.2 h
              · have := List.IsPrefix.length_le h
                omega
      · rw [subn_cons_nomatch p r hp c t hm]
        have ht : t.length ≤ n := by simpa using hs
        have IH := ih t ht
        have key : ∀ w, w <:+ p → w ≠ p →
            (w <+: c :: (subn p r t).1 ↔ w <+: c :: t) := by
          intro w hw hwne
          cases w with
          | nil => simp
          | cons wh wt =>
            rw [ List.cons_prefix_cons, List.cons_prefix_cons]
            have hwt : wt <:+ p := (List.suffix_cons wh wt).trans hw
            have hwl : wt.length + 1 ≤ p.length := by
              simpa using List.IsSuffix.length_le hw
            have hwtne : wt ≠ p := by
              intro he
              rw [he] at hwl
              omega
            rw [IH.2 wt hwt hwtne]
        constructor
        · show (if p <+: c :: (subn p r t).1 then 1 else 0)
              + countOccAll p (subn p r t).1 = 0
          rw [IH.1]
          have hnot : ¬ p <+: c :: (subn p r t).1 := by
            intro hc
            cases p with
            | nil => exact hp rfl
            | cons ph pt =>
              rw [ List.cons_prefix_cons] at hc
              have hpt : pt <:+ ph :: pt := List.suffix_cons ph pt
              have hptne : pt ≠ ph :: pt := by
                intro he
                have := congrArg List.length he
                simp at this
              have := (IH.2 pt hpt hptne).mp hc.2
              exact hm ((List.cons_prefix_cons).mpr ⟨hc.1, this⟩)
          rw [if_neg hnot]
        · exact key

/-- The `CONSOLE_PATTERNS` table of the script: the five literal regexes
`console\.X\(` and their replacements `logger.X(`. -/
def CONSOLE_PATTERNS : List (List Char × List Char) :=
  [("console.error(".toList, "logger.error(".toList),
   ("console.warn(".toList, "logger.warn(".toList),
   ("console.log(".toList, "logger.log(".toList),
   ("console.debug(".toList, "logger.debug(".toList),
   ("console.info(".toList, "logger.info(".toList)]

/-- The `for pattern, replacement in CONSOLE_PATTERNS` loop of
`replace_console_statements`: thread the text through `re.subn` for each
pair, accumulating the replacement count. -/
def replaceAll (prs : List (List Char × List Char)) (acc : List Char × Nat) :
    List Char × Nat :=
  prs.foldl
    (fun a pr => ((subn pr.1 pr.2 a.1).1, a.2 + (subn pr.1 pr.2 a.1).2)) acc

/-- Model of `replace_console_statements(content)`: the rewritten text and the total
number of replacements. -/
def replace_console_statements (content : List Char) : List Char × Nat :=
  replaceAll CONSOLE_PATTERNS (content, 0)

theorem replaceAll_nil (acc : List Char × Nat) : replaceAll [] acc = acc := rfl

theorem replaceAll_cons (pr : List Char × List Char)
    (prs : List (List Char × List Char)) (acc : List Char × Nat) :
    replaceAll (pr :: prs) acc =
      replaceAll prs
        ((subn pr.1 pr.2 acc.1).1, acc.2 + (subn pr.1 pr.2 acc.1).2) := rfl

/-- Conditions letting one find/replace pair interact predictably with its
own pattern: the pattern is nonempty, never overlaps itself, and cannot
overlap the replacement text in either direction. All five console
pattern/replacement pairs satisfy this (checked by `decide`). -/
def SelfOK (p r : List Char) : Prop :=
  p ≠ [] ∧
  (∀ v ∈ r.tails, v ≠ [] → ¬ p <+: v ∧ ¬ v <+: p) ∧
  (∀ w ∈ p.tails, w ≠ [] → w ≠ p → ¬ w <+: r ∧ ¬ r <+: w ∧ ¬ w <+: p)

/-- Conditions making the replacement of `p` by `r` invisible to another
pattern `q`: occurrences of `q` can neither overlap `p`, nor `r`, nor the
boundaries created by the replacement. -/
def PairOK (p r q : List Char) : Prop :=
  (∀ v ∈ r.tails, v ≠ [] → ¬ q <+: v ∧ ¬ v <+: q) ∧
  (∀ v ∈ p.tails, v ≠ [] → ¬ q <+: v ∧ ¬ v <+: q) ∧
  (∀ w ∈ q.tails, w ≠ [] →
    ¬ w <+: r ∧ ¬ r <+: w ∧ ¬ w <+: p ∧ ¬ p <+: w)

theorem replaceAll_cons_pair (pr : List Char × List Char)
    (prs : List (List Char × List Char)) (s : List Char) (k : Nat) :
    replaceAll (pr :: prs) (s, k) =
      replaceAll prs
        ((subn pr.1 pr.2 s).1, k + (subn pr.1 pr.2 s).2) := rfl

theorem replaceAll_preserve (q : List Char) :
    ∀ prs : List (List Char × List Char),
      (∀ pr ∈ prs, pr.1 ≠ [] ∧ PairOK pr.1 pr.2 q) →
      ∀ s k, countOccAll q (replaceAll prs (s, k)).1 = countOccAll q s := by
  intro prs
  induction prs with
  | nil => intro _ s k; rfl
  | cons pr rest ihp =>
    intro h s k
    obtain ⟨hp, h1, h2, h3⟩ := h pr (List.mem_cons_self pr rest)
    rw [replaceAll_cons]
    rw [ihp (fun pr' h' => h pr' (List.mem_cons_of_mem pr h')) _ _]
    exact (subn_preserve pr.1 pr.2 q hp h1 h2 h3 s.length s (le_refl _)).1

theorem replaceAll_count
    (prs : List (List Char × List Char))
    (hok : ∀ pr ∈ prs, SelfOK pr.1 pr.2)
    (hpair : prs.Pairwise fun a b => PairOK a.1 a.2 b.1 ∧ PairOK b.1 b.2 a.1) :
    ∀ s k, (replaceAll prs (s, k)).2
      = k + (prs.map fun pr => countOccAll pr.1 s).sum := by
  induction prs with
  | nil => intro s k; simp [replaceAll]
  | cons pr rest ihp =>
    intro s k
    obtain ⟨hp, h1, h3⟩ := hok pr (List.mem_cons_self pr rest)
    obtain ⟨hhead, htail⟩ := List.pairwise_cons.mp hpair
    have hz : (subn pr.1 pr.2 s).2 = countOccAll pr.1 s :=
      subn_count_eq pr.1 pr.2 hp
        (fun v hv hne hnep => (h3 v hv hne hnep).2.2) s.length s (le_refl _)
    rw [replaceAll_cons,
      ihp (fun pr' h' => hok pr' (List.mem_cons_of_mem pr h')) htail]
    have hmap : (rest.map fun pr' => countOccAll pr'.1 (subn pr.1 pr.2 s).1)
        = rest.map fun pr' => countOccAll pr'.1 s := by
      apply List.map_congr_left
      intro pr' h'
      exact (subn_preserve pr.1 pr.2 pr'.1 hp
        (hhead pr' h').1.1 (hhead pr' h').1.2.1 (hhead pr' h').1.2.2
        s.length s (le_refl _)).1
    rw [hmap, List.map_cons, List.sum_cons, hz]
    omega

theorem replaceAll_clears
    (prs : List (List Char × List Char))
    (hok : ∀ pr ∈ prs, SelfOK pr.1 pr.2)
    (hpair : prs.Pairwise fun a b => PairOK a.1 a.2 b.1 ∧ PairOK b.1 b.2 a.1) :
    ∀ s k, ∀ pr ∈ prs, countOccAll pr.1 (replaceAll prs (s, k)).1 = 0 := by
  induction prs with
  | nil => intro s k pr h; simp at h
  | cons pr0 rest ihp =>
    intro s k pr hpr
    obtain ⟨hp, h1, h3⟩ := hok pr0 (List.mem_cons_self pr0 rest)
    obtain ⟨hhead, htail⟩ := List.pairwise_cons.mp hpair
    rw [replaceAll_cons]
    rcases List.mem_cons.mp hpr with rfl | hmem
    · rw [replaceAll_preserve pr.1 rest
        (fun pr' h' => ⟨(hok pr' (List.mem_cons_of_mem pr h')).1,
          (hhead pr' h').2⟩)]
      exact (subn_clear pr.1 pr.2 hp h1 h3 s.length s (le_refl _)).1
    · exact ihp (fun pr' h' => hok pr' (List.mem_cons_of_mem pr0 h')) htail
        _ _ pr hmem

theorem replaceAll_fix
    (prs : List (List Char × List Char))
    (hok : ∀ pr ∈ prs, SelfOK pr.1 pr.2) :
    ∀ s k, (∀ pr ∈ prs, countOccAll pr.1 s = 0) →
      replaceAll prs (s, k) = (s, k) := by
  induction prs with
  | nil => intro s k _; rfl
  | cons pr rest ihp =>
    intro s k h0
    obtain ⟨hp, h1, h3⟩ := hok pr (List.mem_cons_self pr rest)
    have hz : (subn pr.1 pr.2 s).2 = countOccAll pr.1 s :=
      subn_count_eq pr.1 pr.2 hp
        (fun v hv hne hnep => (h3 v hv hne hnep).2.2) s.length s (le_refl _)
    have hz0 : (subn pr.1 pr.2 s).2 = 0 := by
      rw [hz, h0 pr (List.mem_cons_self pr rest)]
    have hfix : (subn pr.1 pr.2 s).1 = s :=
      subn_fix_of_zero pr.1 pr.2 hp s.length s (le_refl _) hz0
    rw [replaceAll_cons, hfix, hz0]
    exact ihp (fun pr' h' => hok pr' (List.mem_cons_of_mem pr h')) s k
      (fun pr' h' => h0 pr' (List.mem_cons_of_mem pr h'))

theorem replaceAll_len
    (prs : List (List Char × List Char))
    (hok : ∀ pr ∈ prs, SelfOK pr.1 pr.2)
    (hlen : ∀ pr ∈ prs, pr.1.length = pr.2.length + 1) :
    ∀ s k, (replaceAll prs (s, k)).1.length + (replaceAll prs (s, k)).2
      = s.length + k := by
  induction prs with
  | nil => intro s k; simp [replaceAll]
  | cons pr rest ihp =>
    intro s k
    obtain ⟨hp, _, _⟩ := hok pr (List.mem_cons_self pr rest)
    have hstep := subn_length pr.1 pr.2 hp
      (hlen pr (List.mem_cons_self pr rest)) s.length s (le_refl _)
    rw [replaceAll_cons_pair]
    have := ihp (fun pr' h' => hok pr' (List.mem_cons_of_mem pr h'))
      (fun pr' h' => hlen pr' (List.mem_cons_of_mem pr h'))
      (subn pr.1 pr.2 s).1 (k + (subn pr.1 pr.2 s).2)
    omega

instance decSelfOK (p r : List Char) : Decidable (SelfOK p r) := by
  unfold SelfOK; infer_instance

instance decPairOK (p r q : List Char) : Decidable (PairOK p r q) := by
  unfold PairOK; infer_instance

theorem console_patterns_selfOK : ∀ pr ∈ CONSOLE_PATTERNS, SelfOK pr.1 pr.2 := by
  decide

theorem console_patterns_pairwise : CONSOLE_PATTERNS.Pairwise
    (fun a b => PairOK a.1 a.2 b.1 ∧ PairOK b.1 b.2 a.1) := by
  decide

theorem console_patterns_len :
    ∀ pr ∈ CONSOLE_PATTERNS, pr.1.length = pr.2.length + 1 := by
  decide

/-- C1: `replace_console_statements` replaces each occurrence of
`console.X(` for X in {error, warn, log, debug, info} by `logger.X(`; the
returned count is the total number of occurrences of the five patterns in
the input, and the returned text equals the input iff that count is 0. -/
theorem replace_console_count_spec (s : List Char) :
    (replace_console_statements s).2
        = (CONSOLE_PATTERNS.map fun pr => countOccAll pr.1 s).sum ∧
    ((replace_console_statements s).1 = s ↔
      (replace_console_statements s).2 = 0) := by
  have hok := console_patterns_selfOK
  have hpair := console_patterns_pairwise
  have hcount : (replace_console_statements s).2
      = 0 + (CONSOLE_PATTERNS.map fun pr => countOccAll pr.1 s).sum :=
    replaceAll_count CONSOLE_PATTERNS hok hpair s 0
  refine ⟨by simpa using hcount, ?_, ?_⟩
  · intro hfix
    have hl : (replace_console_statements s).1.length
        + (replace_console_statements s).2 = s.length + 0 :=
      replaceAll_len CONSOLE_PATTERNS hok console_patterns_len s 0
    rw [hfix] at hl
    omega
  · intro h0
    have hsum : (CONSOLE_PATTERNS.map fun pr => countOccAll pr.1 s).sum = 0 := by
      omega
    have hzero : ∀ pr ∈ CONSOLE_PATTERNS, countOccAll pr.1 s = 0 := by
      intro pr hpr
      exact List.sum_eq_zero_iff.mp hsum _ (List.mem_map_of_mem _ hpr)
    show (replaceAll CONSOLE_PATTERNS (s, 0)).1 = s
    rw [replaceAll_fix CONSOLE_PATTERNS hok s 0 hzero]

/-- C3 counterexample: on the line `// console.log(x)` the call position is
preceded by the comment-opening token `//` at an earlier offset, yet
`replace_console_statements` still rewrites it (count 1, text changed).
The rewriter has no comment check at all. -/
theorem comment_console_is_rewritten :
    replace_console_statements ("// console.log(x)".toList)
      = ("// logger.log(x)".toList, 1) := by decide

/-- C3 (amended): the rewriter acts on every occurrence of the five
console patterns, whether or not a comment-opening token precedes it on
the line: after the rewrite no occurrence of any pattern remains anywhere
in the text. -/
theorem replace_console_clears_occurrences (s : List Char) :
    ∀ pr ∈ CONSOLE_PATTERNS,
      countOccAll pr.1 (replace_console_statements s).1 = 0 :=
  fun pr hpr =>
    replaceAll_clears CONSOLE_PATTERNS console_patterns_selfOK
      console_patterns_pairwise s 0 pr hpr

theorem replace_console_clears_occurrences_witness :
    countOccAll ("console.log(".toList)
      (replace_console_statements ("a(); // console.log(b)".toList)).1 = 0 :=
  replace_console_clears_occurrences ("a(); // console.log(b)".toList)
    ("console.log(".toList, "logger.log(".toList) (by decide)

/-- Python `pat in s` on strings: `pat` occurs as a contiguous substring. -/
def containsSub (pat s : List Char) : Bool :=
  s.tails.any (fun t => pat.isPrefixOf t)

/-- Characters removed by Python `str.strip()` (whitespace; the source
lines handled here are ASCII). -/
def isPySpace (c : Char) : Bool :=
  c = ' ' || c = '\t' || c = '\n' || c = '\r' || c = '\x0b' || c = '\x0c'

/-- Python `str.strip()`: drop leading and trailing whitespace. -/
def pyStrip (l : List Char) : List Char :=
  ((l.dropWhile isPySpace).reverse.dropWhile isPySpace).reverse

/-- The loop condition of `add_logger_import`:
`line.strip().startswith('import ') or line.strip().startswith('} from')`. -/
def importPred (line : List Char) : Bool :=
  ("import ".toList).isPrefixOf (pyStrip line)
    || ("\x7d from".toList).isPrefixOf (pyStrip line)

/-- Python `content.split('\n')`. -/
def splitNl : List Char → List (List Char)
  | [] => [[]]
  | c :: t =>
    match splitNl t with
    | [] => [[]]
    | h :: r => if c = '\n' then [] :: h :: r else (c :: h) :: r

/-- Python `'\n'.join(lines)`. -/
def joinNl : List (List Char) → List Char
  | [] => []
  | [l] => l
  | l :: l' :: ls => l ++ '\n' :: joinNl (l' :: ls)

theorem splitNl_ne_nil (s : List Char) : splitNl s ≠ [] := by
  induction s with
  | nil => simp [splitNl]
  | cons c t ih =>
    simp only [splitNl]
    cases h : splitNl t with
    | nil => simp
    | cons hd r =>
      by_cases hc : c = '\n' <;> simp [hc]

theorem splitNl_cons_nl (t : List Char) :
    splitNl ('\n' :: t) = [] :: splitNl t := by
  simp only [splitNl]
  cases h : splitNl t with
  | nil => exact absurd h (splitNl_ne_nil t)
  | cons hd r => simp

theorem splitNl_no_nl (a : List Char) (ha : ('\n' : Char) ∉ a) :
    splitNl a = [a] := by
  induction a with
  | nil => rfl
  | cons c a' ih =>
    have hc : c ≠ '\n' := fun he => ha (he ▸ List.mem_cons_self c a')
    have ha' : ('\n' : Char) ∉ a' := fun h => ha (List.mem_cons_of_mem c h)
    simp only [splitNl, ih ha']
    simp [hc]

theorem splitNl_append_nl (a b : List Char) (ha : ('\n' : Char) ∉ a) :
    splitNl (a ++ '\n' :: b) = a :: splitNl b := by
  induction a with
  | nil => simpa using splitNl_cons_nl b
  | cons c a' ih =>
    have hc : c ≠ '\n' := fun he => ha (he ▸ List.mem_cons_self c a')
    have ha' : ('\n' : Char) ∉ a' := fun h => ha (List.mem_cons_of_mem c h)
    show splitNl (c :: (a' ++ '\n' :: b)) = (c :: a') :: splitNl b
    simp only [splitNl, ih ha']
    simp [hc]

theorem joinNl_cons_cons (c : Char) (hd : List Char) (r : List (List Char)) :
    joinNl ((c :: hd) :: r) = c :: joinNl (hd :: r) := by
  cases r <;> simp [joinNl]

theorem joinNl_splitNl (s : List Char) : joinNl (splitNl s) = s := by
  induction s with
  | nil => rfl
  | cons c t ih =>
    cases h : splitNl t with
    | nil => exact absurd h (splitNl_ne_nil t)
    | cons hd r =>
      rw [h] at ih
      by_cases hc : c = '\n'
      · subst hc
        rw [splitNl_cons_nl, h]
        show ('\n' :: joinNl (hd :: r) : List Char) = '\n' :: t
        rw [ih]
      · show joinNl (splitNl (c :: t)) = c :: t
        simp only [splitNl, h, if_neg hc]
        rw [joinNl_cons_cons, ih]

theorem splitNl_mem_no_nl (s : List Char) :
    ∀ l ∈ splitNl s, ('\n' : Char) ∉ l := by
  induction s with
  | nil =>
    intro l hl
    simp [splitNl] at hl
    simp [hl]
  | cons c t ih =>
    intro l hl
    cases h : splitNl t with
    | nil => exact absurd h (splitNl_ne_nil t)
    | cons hd r =>
      by_cases hc : c = '\n'
      · subst hc
        rw [splitNl_cons_nl, h] at hl
        rcases List.mem_cons.mp hl with rfl | hl
        · simp
        · exact ih l (h ▸ hl)
      · simp only [splitNl, h, if_neg hc] at hl
        rcases List.mem_cons.mp hl with rfl | hl
        · intro hmem
          rcases List.mem_cons.mp hmem with he | hmem
          · exact hc he.symm
          · exact ih hd (h ▸ List.mem_cons_self hd r) hmem
        · exact ih l (h ▸ List.mem_cons_of_mem hd hl)

theorem splitNl_joinNl (L : List (List Char)) (hL : L ≠ [])
    (hnl : ∀ l ∈ L, ('\n' : Char) ∉ l) : splitNl (joinNl L) = L := by
  induction L with
  | nil => exact absurd rfl hL
  | cons l L' ih =>
    cases L' with
    | nil =>
      show splitNl (joinNl [l]) = [l]
      exact splitNl_no_nl l (hnl l (List.mem_cons_self l []))
    | cons l' L'' =>
      show splitNl (l ++ '\n' :: joinNl (l' :: L'')) = l :: l' :: L''
      rw [splitNl_append_nl _ _ (hnl l (List.mem_cons_self _ _)),
        ih (List.cons_ne_nil l' L'')
          (fun x hx => hnl x (List.mem_cons_of_mem l hx))]

/-- Python `lines.insert(n, x)` (for `n ≤ len(lines)`). -/
def insertAt (n : Nat) (x : List Char) (l : List (List Char)) :
    List (List Char) :=
  l.take n ++ x :: l.drop n

/-- The `for i, line in enumerate(lines)` loop of `add_logger_import`,
which remembers the index of the last line satisfying `importPred`. -/
def lastImportIdx (lines : List (List Char)) : Option Nat :=
  lines.enum.foldl (fun acc pr => if importPred pr.2 then some pr.1 else acc)
    none

/-- Recursive characterisation of the index computed by `lastImportIdx`. -/
def lastIdxRec : List (List Char) → Option Nat
  | [] => none
  | l :: ls =>
    match lastIdxRec ls with
    | some j => some (j + 1)
    | none => if importPred l then some 0 else none

theorem lastIdx_foldl (ls : List (List Char)) :
    ∀ i acc,
      (List.enumFrom i ls).foldl
        (fun acc pr => if importPred pr.2 then some pr.1 else acc) acc
      = match lastIdxRec ls with
        | some j => some (i + j)
        | none => acc := by
  induction ls with
  | nil => intro i acc; rfl
  | cons l ls ih =>
    intro i acc
    rw [show List.enumFrom i (l :: ls) = (i, l) :: List.enumFrom (i + 1) ls
      from rfl, List.foldl_cons, ih (i + 1) _]
    cases h : lastIdxRec ls with
    | some j =>
      simp only [lastIdxRec, h]
      exact congrArg some (by omega)
    | none =>
      simp only [lastIdxRec, h]
      by_cases hl : importPred l <;> simp [hl]

theorem lastImportIdx_eq (ls : List (List Char)) :
    lastImportIdx ls = lastIdxRec ls := by
  show (List.enumFrom 0 ls).foldl _ none = _
  rw [lastIdx_foldl ls 0 none]
  cases h : lastIdxRec ls <;> simp

theorem importPred_nil : importPred [] = false := rfl

theorem lastIdxRec_none (ls : List (List Char)) :
    lastIdxRec ls = none ↔ ∀ l ∈ ls, importPred l = false := by
  induction ls with
  | nil => simp [lastIdxRec]
  | cons l ls ih =>
    simp only [lastIdxRec]
    cases h : lastIdxRec ls with
    | some j =>
      refine iff_of_false (by simp) (fun hall => ?_)
      rw [ih.mpr (fun l' hl' => hall l' (List.mem_cons_of_mem l hl'))] at h
      exact Option.noConfusion h
    | none =>
      by_cases hl : importPred l
      · refine iff_of_false (by simp [hl]) (fun hall => ?_)
        rw [hall l (List.mem_cons_self l ls)] at hl
        exact Bool.noConfusion hl
      · simp only [if_neg hl]
        constructor
        · intro _ l' hl'
          rcases List.mem_cons.mp hl' with rfl | hmem
          · exact Bool.not_eq_true _ ▸ Bool.eq_false_iff.mpr hl
          · exact ih.mp h l' hmem
        · intro _; trivial

theorem importPred_getD_false (ls : List (List Char))
    (hall : ∀ l ∈ ls, importPred l = false) (j : Nat) :
    importPred (ls.getD j []) = false := by
  by_cases hj : j < ls.length
  · rw [List.getD_eq_getElem ls [] hj]
    exact hall _ (List.getElem_mem hj)
  · rw [List.getD_eq_default _ _ (Nat.le_of_not_lt hj)]
    rfl

theorem lastIdxRec_some (ls : List (List Char)) :
    ∀ i, lastIdxRec ls = some i →
      importPred (ls.getD i []) = true ∧
      ∀ j, i < j → importPred (ls.getD j []) = false := by
  induction ls with
  | nil => intro i hi; exact Option.noConfusion hi
  | cons l ls ih =>
    intro i hi
    simp only [lastIdxRec] at hi
    cases h : lastIdxRec ls with
    | some j =>
      rw [h] at hi
      have : i = j + 1 := (Option.some.injEq _ _ ▸ hi).symm
      subst this
      refine ⟨by simpa using (ih j h).1, ?_⟩
      intro k hk
      cases k with
      | zero => omega
      | succ k' =>
        rw [List.getD_cons_succ]
        exact (ih j h).2 k' (by omega)
    | none =>
      rw [h] at hi
      by_cases hl : importPred l
      · rw [if_pos hl] at hi
        have : i = 0 := (Option.some.injEq _ _ ▸ hi).symm
        subst this
        refine ⟨by simpa using hl, ?_⟩
        intro k hk
        cases k with
        | zero => omega
        | succ k' =>
          rw [List.getD_cons_succ]
          exact importPred_getD_false ls (lastIdxRec_none ls |>.mp h) k'
      · rw [if_neg hl] at hi
        exact Option.noConfusion hi

/-- The import line chosen by `add_logger_import` from the file path. -/
def importLineFor (fp : List Char) : List Char :=
  if containsSub ("src/utils/".toList) fp then
    if ("src/utils/breadcrumbs/debug.ts".toList).isSuffixOf fp then
      "import \x7b createNamespacedLogger \x7d from \x27../logger\x27".toList
    else
      "import \x7b logger \x7d from \x27./logger\x27".toList
  else
    "import \x7b logger \x7d from \x27@/utils/logger\x27".toList

/-- Model of `add_logger_import(content, file_path)`. -/
def add_logger_import (content fp : List Char) : List Char :=
  match lastImportIdx (splitNl content) with
  | none => importLineFor fp ++ '\n' :: '\n' :: content
  | some i => joinNl (insertAt (i + 1) (importLineFor fp) (splitNl content))

theorem importLineFor_no_nl (fp : List Char) :
    ('\n' : Char) ∉ importLineFor fp := by
  unfold importLineFor
  split_ifs <;> decide

theorem mem_insertAt (y x : List Char) (n : Nat) (l : List (List Char))
    (h : y ∈ insertAt n x l) : y = x ∨ y ∈ l := by
  unfold insertAt at h
  rcases List.mem_append.mp h with h | h
  · exact Or.inr ((List.take_subset n l) h)
  · rcases List.mem_cons.mp h with rfl | h
    · exact Or.inl rfl
    · exact Or.inr ((List.drop_subset n l) h)

/-- C9: `add_logger_import` inserts the chosen logger import line
immediately after the last line satisfying the import test (a line whose
stripped text starts with `import ` or `} from`); when no such line
exists it prepends the import line and a blank line before the unchanged
content.  Every original line appears unchanged and in order in the
result (the original line list is a sublist of the result's lines). -/
theorem add_logger_import_spec (content fp : List Char) :
    (lastImportIdx (splitNl content) = none →
      (∀ l ∈ splitNl content, importPred l = false) ∧
      add_logger_import content fp
        = importLineFor fp ++ '\n' :: '\n' :: content ∧
      splitNl (add_logger_import content fp)
        = importLineFor fp :: [] :: splitNl content) ∧
    (∀ i, lastImportIdx (splitNl content) = some i →
      importPred ((splitNl content).getD i []) = true ∧
      (∀ j, i < j → importPred ((splitNl content).getD j []) = false) ∧
      splitNl (add_logger_import content fp)
        = (splitNl content).take (i + 1)
            ++ importLineFor fp :: (splitNl content).drop (i + 1)) ∧
    (splitNl content).Sublist (splitNl (add_logger_import content fp)) := by
  have hsplit_some : ∀ i, lastImportIdx (splitNl content) = some i →
      splitNl (add_logger_import content fp)
        = (splitNl content).take (i + 1)
            ++ importLineFor fp :: (splitNl content).drop (i + 1) := by
    intro i h
    unfold add_logger_import
    rw [h]
    have hins : insertAt (i + 1) (importLineFor fp) (splitNl content) ≠ [] := by
      unfold insertAt
      simp
    have hmem : ∀ l ∈ insertAt (i + 1) (importLineFor fp) (splitNl content),
        ('\n' : Char) ∉ l := by
      intro l hl
      rcases mem_insertAt l _ _ _ hl with rfl | hl
      · exact importLineFor_no_nl fp
      · exact splitNl_mem_no_nl content l hl
    rw [splitNl_joinNl _ hins hmem]
    rfl
  have hsplit_none : lastImportIdx (splitNl content) = none →
      splitNl (add_logger_import content fp)
        = importLineFor fp :: [] :: splitNl content := by
    intro h
    unfold add_logger_import
    rw [h, splitNl_append_nl _ _ (importLineFor_no_nl fp), splitNl_cons_nl]
  refine ⟨fun h => ⟨?_, ?_, hsplit_none h⟩, fun i h => ?_, ?_⟩
  · exact (lastIdxRec_none _).mp (lastImportIdx_eq _ ▸ h)
  · unfold add_logger_import
    rw [h]
  · have hr := lastIdxRec_some _ i (lastImportIdx_eq _ ▸ h)
    exact ⟨hr.1, hr.2, hsplit_some i h⟩
  · cases h : lastImportIdx (splitNl content) with
    | none =>
      rw [hsplit_none h]
      exact (List.sublist_cons_self _ _).trans (List.sublist_cons_self _ _)
    | some i =>
      rw [hsplit_some i h]
      have h2 : ((splitNl content).take (i + 1)
            ++ (splitNl content).drop (i + 1)).Sublist
          ((splitNl content).take (i + 1)
            ++ importLineFor fp :: (splitNl content).drop (i + 1)) :=
        List.Sublist.append_left (List.sublist_cons_self _ _) _
      rw [List.take_append_drop] at h2
      exact h2

theorem add_logger_import_spec_witness :
    splitNl (add_logger_import
        ("import x from \x27y\x27\nlet a = 1".toList) ("src/App.tsx".toList))
      = (splitNl ("import x from \x27y\x27\nlet a = 1".toList)).take 1
          ++ importLineFor ("src/App.tsx".toList)
            :: (splitNl ("import x from \x27y\x27\nlet a = 1".toList)).drop 1 :=
  ((add_logger_import_spec ("import x from \x27y\x27\nlet a = 1".toList)
      ("src/App.tsx".toList)).2.1 0 (by decide)).2.2

theorem containsSub_iff (pat s : List Char) :
    containsSub pat s = true ↔ pat <:+: s := by
  unfold containsSub
  rw [List.any_eq_true]
  constructor
  · rintro ⟨t, ht, hp⟩
    exact List.infix_iff_prefix_suffix.mpr
      ⟨t, List.isPrefixOf_iff_prefix.mp hp, (List.mem_tails _ _).mp ht⟩
  · intro h
    obtain ⟨t, hp, hs⟩ := List.infix_iff_prefix_suffix.mp h
    exact ⟨t, (List.mem_tails _ _).mpr hs, List.isPrefixOf_iff_prefix.mpr hp⟩

/-- The `SKIP_FILES` set of the script. -/
def SKIP_FILES : List (List Char) :=
  ["src/utils/logger.ts".toList, "eslint.config.js".toList]

/-- Model of `should_skip_file(file_path)`. -/
def should_skip_file (fp : List Char) : Bool :=
  if containsSub ("/tests/".toList) fp || containsSub (".test.".toList) fp then
    true
  else if containsSub ("/scripts/".toList) fp
      || containsSub ("/.claude/".toList) fp then
    true
  else
    SKIP_FILES.any (fun sk => sk.isSuffixOf fp)

/-- C4: a file path is skipped iff one of the four fixed substrings occurs
anywhere in it, or it ends with one of the two fixed skip-file suffixes. -/
theorem should_skip_file_spec (fp : List Char) :
    should_skip_file fp = true ↔
      ("/tests/".toList <:+: fp ∨ ".test.".toList <:+: fp ∨
       "/scripts/".toList <:+: fp ∨ "/.claude/".toList <:+: fp ∨
       "src/utils/logger.ts".toList <:+ fp ∨
       "eslint.config.js".toList <:+ fp) := by
  have hb : should_skip_file fp
      = (containsSub ("/tests/".toList) fp
          || containsSub (".test.".toList) fp
          || containsSub ("/scripts/".toList) fp
          || containsSub ("/.claude/".toList) fp
          || ("src/utils/logger.ts".toList).isSuffixOf fp
          || ("eslint.config.js".toList).isSuffixOf fp) := by
    unfold should_skip_file SKIP_FILES
    split_ifs with h1 h2 <;> simp_all
  rw [hb]
  simp only [Bool.or_eq_true, containsSub_iff, List.isSuffixOf_iff_suffix,
    or_assoc]

/-- State of one path on disk: missing, unreadable (with the failure
message the raised exception carries), or readable with some content. -/
inductive FileState where
  | absent : FileState
  | unreadable : List Char → FileState
  | ok : List Char → FileState

/-- The filesystem seen by the script: contents by path. -/
def FS : Type := List Char → FileState

/-- Model of `open(file_path).read()`: the content, or the exception message. -/
def readFile (fs : FS) (p : List Char) : Except (List Char) (List Char) :=
  match fs p with
  | .ok c => .ok c
  | .unreadable m => .error m
  | .absent => .error ("No such file or directory".toList)

/-- Model of `open(file_path, 'w').write(new_content)`. -/
def writeFile (fs : FS) (p c : List Char) : FS :=
  fun q => if q = p then .ok c else fs q

/-- Model of `needs_logger_import(content)`. -/
def needs_logger_import (content : List Char) : Bool :=
  if containsSub ("from \x27./utils/logger\x27".toList) content
      || containsSub ("from \"@/utils/logger\"".toList) content
      || containsSub ("from \x27./logger\x27".toList) content
      || containsSub ("from \x27../logger\x27".toList) content then
    false
  else
    CONSOLE_PATTERNS.any (fun pr => containsSub pr.1 content)

/-- The message printed by the `except` handler of `process_file`. -/
def errMsg (fp m : List Char) : List Char :=
  "❌ Error processing ".toList ++ fp ++ ": ".toList ++ m

/-- The content written back by `process_file`: the rewritten text, with
the logger import added when the original content needs it. -/
def newContentFor (original fp : List Char) : List Char :=
  if needs_logger_import original then
    add_logger_import (replace_console_statements original).1 fp
  else
    (replace_console_statements original).1

/-- Result of `process_file`: the filesystem afterwards, the returned
`(modified, replacements)` pair, and the error lines printed. -/
structure PFRes where
  fs : FS
  modified : Bool
  count : Nat
  errs : List (List Char)

/-- Model of `process_file(file_path)`: skip check, read (exceptions caught and
reported), rewrite, and write back only when replacements were made. -/
def process_file (fs : FS) (fp : List Char) : PFRes :=
  if should_skip_file fp then ⟨fs, false, 0, []⟩
  else
    match readFile fs fp with
    | .error m => ⟨fs, false, 0, [errMsg fp m]⟩
    | .ok original =>
      if (replace_console_statements original).2 = 0 then ⟨fs, false, 0, []⟩
      else
        ⟨writeFile fs fp (newContentFor original fp), true,
          (replace_console_statements original).2, []⟩

/-- Accumulated state of `main`'s loop over the sorted file list.  The
script records `os.path.relpath(file_path, root_dir)` in its summary;
path formatting is presentation-only, so `modifiedFiles` records the file
path itself. -/
structure LoopRes where
  fs : FS
  totalFiles : Nat
  totalRepl : Nat
  modifiedFiles : List (List Char × Nat)
  errs : List (List Char)

/-- One iteration of the `for file_path in sorted(files)` loop of `main`. -/
def mainStep (acc : LoopRes) (fp : List Char) : LoopRes :=
  if (process_file acc.fs fp).modified then
    ⟨(process_file acc.fs fp).fs, acc.totalFiles + 1,
      acc.totalRepl + (process_file acc.fs fp).count,
      acc.modifiedFiles ++ [(fp, (process_file acc.fs fp).count)],
      acc.errs ++ (process_file acc.fs fp).errs⟩
  else
    ⟨(process_file acc.fs fp).fs, acc.totalFiles, acc.totalRepl,
      acc.modifiedFiles, acc.errs ++ (process_file acc.fs fp).errs⟩

/-- The whole loop of `main` over a file list, starting from filesystem
`fs` and zeroed counters. -/
def mainLoop (files : List (List Char)) (fs : FS) : LoopRes :=
  files.foldl mainStep ⟨fs, 0, 0, [], []⟩

theorem mainLoop_shift (files : List (List Char)) :
    ∀ (fs : FS) (tf tr : Nat) (mf : List (List Char × Nat))
      (e : List (List Char)),
      files.foldl mainStep ⟨fs, tf, tr, mf, e⟩
        = ⟨(mainLoop files fs).fs, tf + (mainLoop files fs).totalFiles,
            tr + (mainLoop files fs).totalRepl,
            mf ++ (mainLoop files fs).modifiedFiles,
            e ++ (mainLoop files fs).errs⟩ := by
  induction files with
  | nil =>
    intro fs tf tr mf e
    show (⟨fs, tf, tr, mf, e⟩ : LoopRes) = _
    simp [mainLoop]
  | cons fp files ih =>
    intro fs tf tr mf e
    rw [show mainLoop (fp :: files) fs
        = files.foldl mainStep (mainStep ⟨fs, 0, 0, [], []⟩ fp) from rfl,
      List.foldl_cons]
    by_cases hm : (process_file fs fp).modified = true
    · have h1 : mainStep ⟨fs, tf, tr, mf, e⟩ fp
          = ⟨(process_file fs fp).fs, tf + 1,
              tr + (process_file fs fp).count,
              mf ++ [(fp, (process_file fs fp).count)],
              e ++ (process_file fs fp).errs⟩ := by
        simp [mainStep, hm]
      have h0 : mainStep ⟨fs, 0, 0, [], []⟩ fp
          = ⟨(process_file fs fp).fs, 1, (process_file fs fp).count,
              [(fp, (process_file fs fp).count)],
              (process_file fs fp).errs⟩ := by
        simp [mainStep, hm]
      rw [h1, h0, ih, ih]
      simp [Nat.add_assoc, List.append_assoc]
    · have h1 : mainStep ⟨fs, tf, tr, mf, e⟩ fp
          = ⟨(process_file fs fp).fs, tf, tr, mf,
              e ++ (process_file fs fp).errs⟩ := by
        simp [mainStep, hm]
      have h0 : mainStep ⟨fs, 0, 0, [], []⟩ fp
          = ⟨(process_file fs fp).fs, 0, 0, [],
              (process_file fs fp).errs⟩ := by
        simp [mainStep, hm]
      rw [h1, h0, ih, ih]
      simp [List.append_assoc]

/-- C6: a per-file read failure is recovered locally: `process_file`
catches the exception, reports the file path together with the failure
message, returns `(False, 0)` without modifying any file, and the main
loop continues over the remaining files exactly as it would without the
failing file (plus the recorded error line). -/
theorem process_file_error_recovery (fs : FS) (fp m : List Char)
    (files : List (List Char))
    (hread : readFile fs fp = Except.error m)
    (hskip : should_skip_file fp = false) :
    process_file fs fp = ⟨fs, false, 0, [errMsg fp m]⟩ ∧
    mainLoop (fp :: files) fs
      = ⟨(mainLoop files fs).fs, (mainLoop files fs).totalFiles,
          (mainLoop files fs).totalRepl, (mainLoop files fs).modifiedFiles,
          errMsg fp m :: (mainLoop files fs).errs⟩ := by
  have h1 : process_file fs fp = ⟨fs, false, 0, [errMsg fp m]⟩ := by
    unfold process_file
    rw [if_neg (by simp [hskip]), hread]
  refine ⟨h1, ?_⟩
  show files.foldl mainStep (mainStep ⟨fs, 0, 0, [], []⟩ fp) = _
  have h2 : mainStep ⟨fs, 0, 0, [], []⟩ fp = ⟨fs, 0, 0, [], [errMsg fp m]⟩ := by
    simp [mainStep, h1]
  rw [h2, mainLoop_shift files fs 0 0 [] [errMsg fp m]]
  simp

def fsUnreadable : FS := fun _ => FileState.unreadable ("boom".toList)

theorem process_file_error_recovery_witness :
    process_file fsUnreadable ("src/main.ts".toList)
      = ⟨fsUnreadable, false, 0,
          [errMsg ("src/main.ts".toList) ("boom".toList)]⟩ :=
  (process_file_error_recovery fsUnreadable ("src/main.ts".toList)
    ("boom".toList) [] rfl (by decide)).1

/-- C10: `process_file` never writes unless it makes a replacement: a
skipped path, and a readable file whose content contains no occurrence of
any console pattern, both yield `(False, 0)` with the filesystem (hence
the file's content, and any logger import) left untouched. -/
theorem process_file_no_write_without_replacement (fs : FS) (fp : List Char) :
    (should_skip_file fp = true → process_file fs fp = ⟨fs, false, 0, []⟩) ∧
    (∀ c, readFile fs fp = Except.ok c →
      (∀ pr ∈ CONSOLE_PATTERNS, countOccAll pr.1 c = 0) →
      process_file fs fp = ⟨fs, false, 0, []⟩) := by
  constructor
  · intro h
    unfold process_file
    rw [if_pos h]
  · intro c hread hzero
    have hsum : (CONSOLE_PATTERNS.map fun pr => countOccAll pr.1 c).sum = 0 := by
      refine List.sum_eq_zero_iff.mpr ?_
      intro x hx
      obtain ⟨pr, hpr, rfl⟩ := List.mem_map.mp hx
      exact hzero pr hpr
    have hc : (replace_console_statements c).2 = 0 := by
      have h2 : (replace_console_statements c).2
          = 0 + (CONSOLE_PATTERNS.map fun pr => countOccAll pr.1 c).sum :=
        replaceAll_count CONSOLE_PATTERNS console_patterns_selfOK
          console_patterns_pairwise c 0
      omega
    unfold process_file
    by_cases hskip : should_skip_file fp = true
    · rw [if_pos hskip]
    · rw [if_neg hskip, hread]
      simp [hc]

def fsPlain : FS :=
  fun q => if q = "src/main.ts".toList then FileState.ok ("const x = 1;".toList)
    else FileState.absent

theorem process_file_no_write_without_replacement_witness :
    process_file fsPlain ("src/main.ts".toList)
      = ⟨fsPlain, false, 0, []⟩ :=
  (process_file_no_write_without_replacement fsPlain
    ("src/main.ts".toList)).2 ("const x = 1;".toList) rfl (by decide)

theorem countOccAll_ne_zero_iff (q : List Char) (hq : q ≠ []) :
    ∀ s, countOccAll q s ≠ 0 ↔ ∃ u, u <:+ s ∧ q <+: u := by
  intro s
  induction s with
  | nil =>
    refine iff_of_false (by simp [countOccAll]) ?_
    rintro ⟨u, hu, hp⟩
    have : u = [] := List.eq_nil_of_suffix_nil hu
    subst this
    exact hq (List.eq_nil_of_prefix_nil hp)
  | cons c t ih =>
    by_cases h : q <+: (c :: t)
    · refine iff_of_true ?_ ⟨c :: t, List.suffix_refl _, h⟩
      show (if q <+: (c :: t) then 1 else 0) + countOccAll q t ≠ 0
      rw [if_pos h]
      omega
    · show (if q <+: (c :: t) then 1 else 0) + countOccAll q t ≠ 0 ↔ _
      rw [if_neg h]
      simp only [Nat.zero_add]
      rw [ih]
      constructor
      · rintro ⟨u, hu, hp⟩
        exact ⟨u, hu.trans (List.suffix_cons c t), hp⟩
      · rintro ⟨u, hu, hp⟩
        rcases List.suffix_cons_iff.mp hu with rfl | hu
        · exact absurd hp h
        · exact ⟨u, hu, hp⟩

theorem countOccAll_zero_mono (q : List Char) (hq : q ≠ []) (s x : List Char)
    (hs : countOccAll q s = 0) (hx : x <:+: s) : countOccAll q x = 0 := by
  by_contra hne
  obtain ⟨u, hu, hp⟩ := (countOccAll_ne_zero_iff q hq x).mp hne
  obtain ⟨a, b, rfl⟩ := hx
  obtain ⟨w, rfl⟩ := hu
  have hsuf : u ++ b <:+ a ++ (w ++ u) ++ b := ⟨a ++ w, by simp⟩
  have hpre : q <+: u ++ b := hp.trans ( List.prefix_append u b)
  exact (countOccAll_ne_zero_iff q hq _).mpr ⟨u ++ b, hsuf, hpre⟩ hs

theorem suf_append_cases {u x v : List Char} (h : u <:+ x ++ v) :
    u <:+ v ∨ ∃ w, w <:+ x ∧ w ≠ [] ∧ u = w ++ v := by
  induction x with
  | nil => exact Or.inl (by simpa using h)
  | cons c x' ih =>
    rw [List.cons_append] at h
    rcases List.suffix_cons_iff.mp h with rfl | h
    · exact Or.inr ⟨c :: x', List.suffix_refl _, List.cons_ne_nil c x', by simp⟩
    · rcases ih h with h | ⟨w, hw, hwne, rfl⟩
      · exact Or.inl h
      · exact Or.inr ⟨w, hw.trans (List.suffix_cons c x'), hwne, rfl⟩

theorem countOccAll_zero_glue (q a b : List Char) (hq : q ≠ [])
    (hnl : ('\n' : Char) ∉ q) (ha : countOccAll q a = 0)
    (hb : countOccAll q b = 0) :
    countOccAll q (a ++ '\n' :: b) = 0 := by
  by_contra hne
  obtain ⟨u, hu, hp⟩ := (countOccAll_ne_zero_iff q hq _).mp hne
  rcases suf_append_cases hu with hu | ⟨w, hw, hwne, rfl⟩
  · rcases List.suffix_cons_iff.mp hu with rfl | hu
    · cases q with
      | nil => exact hq rfl
      | cons qh qt =>
        have := ( List.cons_prefix_cons.mp hp).1
        exact hnl (this ▸ List.mem_cons_self qh qt)
    · exact (countOccAll_ne_zero_iff q hq b).mpr ⟨u, hu, hp⟩ hb
  · rcases pre_append_or hp with hqw | hwq
    · exact (countOccAll_ne_zero_iff q hq a).mpr ⟨w, hw, hqw⟩ ha
    · obtain ⟨q', rfl⟩ := hwq
      have hq' : q' <+: '\n' :: b := ( List.prefix_append_right_inj w).mp hp
      cases q' with
      | nil =>
        have : w <:+ a := hw
        exact (countOccAll_ne_zero_iff (w ++ []) hq a).mpr
          ⟨w, hw, by simp⟩ ha
      | cons qh qt =>
        have := ( List.cons_prefix_cons.mp hq').1
        refine hnl ?_
        rw [this]
        exact List.mem_append_right w (List.mem_cons_self _ _)

theorem countOccAll_zero_joinNl (q : List Char) (hq : q ≠ [])
    (hnl : ('\n' : Char) ∉ q) :
    ∀ L : List (List Char), (∀ l ∈ L, countOccAll q l = 0) →
      countOccAll q (joinNl L) = 0 := by
  intro L
  induction L with
  | nil => intro _; rfl
  | cons l L' ih =>
    intro hall
    cases L' with
    | nil => exact hall l (List.mem_cons_self l [])
    | cons l' L'' =>
      show countOccAll q (l ++ '\n' :: joinNl (l' :: L'')) = 0
      refine countOccAll_zero_glue q _ _ hq hnl
        (hall l (List.mem_cons_self _ _)) ?_
      exact ih (fun x hx => hall x (List.mem_cons_of_mem l hx))

theorem importLineFor_no_console (fp : List Char) :
    ∀ pr ∈ CONSOLE_PATTERNS, countOccAll pr.1 (importLineFor fp) = 0 := by
  intro pr hpr
  unfold importLineFor
  split_ifs <;> fin_cases hpr <;> decide

theorem console_patterns_no_nl :
    ∀ pr ∈ CONSOLE_PATTERNS, ('\n' : Char) ∉ pr.1 := by
  decide

theorem mem_joinNl_isInf (L : List (List Char)) :
    ∀ l ∈ L, l <:+: joinNl L := by
  induction L with
  | nil => intro l hl; simp at hl
  | cons l0 L' ih =>
    intro l hl
    cases L' with
    | nil =>
      rcases List.mem_cons.mp hl with rfl | hl
      · exact List.infix_refl _
      · simp at hl
    | cons l1 L'' =>
      rcases List.mem_cons.mp hl with rfl | hl
      · show l <:+: l ++ '\n' :: joinNl (l1 :: L'')
        exact ( List.prefix_append l _).isInfix
      · have hsuf : joinNl (l1 :: L'') <:+ l0 ++ '\n' :: joinNl (l1 :: L'') :=
          ⟨l0 ++ ['\n'], by simp⟩
        exact (ih l hl).trans hsuf.isInfix

theorem countOccAll_addImport (q c fp : List Char) (hq : q ≠ [])
    (hnl : ('\n' : Char) ∉ q)
    (himp : countOccAll q (importLineFor fp) = 0)
    (hc : countOccAll q c = 0) :
    countOccAll q (add_logger_import c fp) = 0 := by
  unfold add_logger_import
  cases h : lastImportIdx (splitNl c) with
  | none =>
    refine countOccAll_zero_glue q _ _ hq hnl himp ?_
    have := countOccAll_zero_glue q [] c hq hnl rfl hc
    simpa using this
  | some i =>
    refine countOccAll_zero_joinNl q hq hnl _ ?_
    intro l hl
    rcases mem_insertAt l _ _ _ hl with rfl | hl
    · exact himp
    · have hinf : l <:+: c := by
        have hmi := mem_joinNl_isInf (splitNl c) l hl
        rwa [joinNl_splitNl c] at hmi
      exact countOccAll_zero_mono q hq c l hc hinf

theorem replace_count_zero_of_no_occ (c : List Char)
    (hzero : ∀ pr ∈ CONSOLE_PATTERNS, countOccAll pr.1 c = 0) :
    (replace_console_statements c).2 = 0 := by
  have hsum : (CONSOLE_PATTERNS.map fun pr => countOccAll pr.1 c).sum = 0 := by
    refine List.sum_eq_zero_iff.mpr ?_
    intro x hx
    obtain ⟨pr, hpr, rfl⟩ := List.mem_map.mp hx
    exact hzero pr hpr
  have h2 : (replace_console_statements c).2
      = 0 + (CONSOLE_PATTERNS.map fun pr => countOccAll pr.1 c).sum :=
    replaceAll_count CONSOLE_PATTERNS console_patterns_selfOK
      console_patterns_pairwise c 0
  omega

theorem newContentFor_no_occ (c fp : List Char) :
    ∀ pr ∈ CONSOLE_PATTERNS, countOccAll pr.1 (newContentFor c fp) = 0 := by
  intro pr hpr
  have hbase : countOccAll pr.1 (replace_console_statements c).1 = 0 :=
    replaceAll_clears CONSOLE_PATTERNS console_patterns_selfOK
      console_patterns_pairwise c 0 pr hpr
  unfold newContentFor
  split_ifs with himp
  · exact countOccAll_addImport pr.1 _ fp
      (console_patterns_selfOK pr hpr).1 (console_patterns_no_nl pr hpr)
      (importLineFor_no_console fp pr hpr) hbase
  · exact hbase

theorem process_file_skip (fs : FS) (fp : List Char)
    (h : should_skip_file fp = true) :
    process_file fs fp = ⟨fs, false, 0, []⟩ := by
  unfold process_file
  rw [if_pos h]

theorem process_file_err (fs : FS) (fp m : List Char)
    (hskip : ¬ should_skip_file fp = true)
    (h : readFile fs fp = Except.error m) :
    process_file fs fp = ⟨fs, false, 0, [errMsg fp m]⟩ := by
  unfold process_file
  rw [if_neg hskip, h]

theorem process_file_nochange (fs : FS) (fp c : List Char)
    (hskip : ¬ should_skip_file fp = true)
    (h : readFile fs fp = Except.ok c)
    (hz : (replace_console_statements c).2 = 0) :
    process_file fs fp = ⟨fs, false, 0, []⟩ := by
  unfold process_file
  rw [if_neg hskip, h]
  simp [hz]

theorem process_file_write (fs : FS) (fp c : List Char)
    (hskip : ¬ should_skip_file fp = true)
    (h : readFile fs fp = Except.ok c)
    (hz : ¬ (replace_console_statements c).2 = 0) :
    process_file fs fp
      = ⟨writeFile fs fp (newContentFor c fp), true,
          (replace_console_statements c).2, []⟩ := by
  unfold process_file
  rw [if_neg hskip, h]
  simp [hz]

theorem process_file_stable (fs : FS) (fp : List Char) :
    (process_file ((process_file fs fp).fs) fp).fs = (process_file fs fp).fs := by
  by_cases hskip : should_skip_file fp = true
  · rw [process_file_skip fs fp hskip]
    show (process_file fs fp).fs = fs
    rw [process_file_skip fs fp hskip]
  · cases hread : readFile fs fp with
    | error m =>
      rw [process_file_err fs fp m hskip hread]
      show (process_file fs fp).fs = fs
      rw [process_file_err fs fp m hskip hread]
    | ok c =>
      by_cases hz : (replace_console_statements c).2 = 0
      · rw [process_file_nochange fs fp c hskip hread hz]
        show (process_file fs fp).fs = fs
        rw [process_file_nochange fs fp c hskip hread hz]
      · rw [process_file_write fs fp c hskip hread hz]
        show (process_file (writeFile fs fp (newContentFor c fp)) fp).fs
            = writeFile fs fp (newContentFor c fp)
        have hread' : readFile (writeFile fs fp (newContentFor c fp)) fp
            = Except.ok (newContentFor c fp) := by
          unfold readFile writeFile
          simp
        have hz' : (replace_console_statements (newContentFor c fp)).2 = 0 :=
          replace_count_zero_of_no_occ _ (newContentFor_no_occ c fp)
        rw [process_file_nochange _ fp _ hskip hread' hz']

theorem process_file_fs_other (fs : FS) (fp q : List Char) (hq : q ≠ fp) :
    (process_file fs fp).fs q = fs q := by
  by_cases hskip : should_skip_file fp = true
  · rw [process_file_skip fs fp hskip]
  · cases hread : readFile fs fp with
    | error m => rw [process_file_err fs fp m hskip hread]
    | ok c =>
      by_cases hz : (replace_console_statements c).2 = 0
      · rw [process_file_nochange fs fp c hskip hread hz]
      · rw [process_file_write fs fp c hskip hread hz]
        show writeFile fs fp (newContentFor c fp) q = fs q
        unfold writeFile
        rw [if_neg hq]

theorem process_file_fs_point (fs fs' : FS) (fp : List Char)
    (h : fs' fp = fs fp) (hst : (process_file fs fp).fs = fs) :
    (process_file fs' fp).fs = fs' := by
  have hre : readFile fs' fp = readFile fs fp := by
    unfold readFile
    rw [h]
  by_cases hskip : should_skip_file fp = true
  · rw [process_file_skip fs' fp hskip]
  · cases hread : readFile fs fp with
    | error m =>
      rw [process_file_err fs' fp m hskip (by rw [hre, hread])]
    | ok c =>
      by_cases hz : (replace_console_statements c).2 = 0
      · rw [process_file_nochange fs' fp c hskip (by rw [hre, hread]) hz]
      · have hst' : writeFile fs fp (newContentFor c fp) = fs := by
          rw [process_file_write fs fp c hskip hread hz] at hst
          exact hst
        have hpoint : fs' fp = FileState.ok (newContentFor c fp) := by
          rw [h, ← hst']
          unfold writeFile
          simp
        rw [process_file_write fs' fp c hskip (by rw [hre, hread]) hz]
        show writeFile fs' fp (newContentFor c fp) = fs'
        funext x
        unfold writeFile
        by_cases hx : x = fp
        · subst hx
          rw [if_pos rfl, hpoint]
        · rw [if_neg hx]

theorem stable_preserved (fs : FS) (p q : List Char)
    (hst : (process_file fs p).fs = fs) :
    (process_file ((process_file fs q).fs) p).fs = (process_file fs q).fs := by
  by_cases hpq : p = q
  · subst hpq
    rw [hst]
    exact hst
  · exact process_file_fs_point fs ((process_file fs q).fs) p
      (process_file_fs_other fs q p hpq) hst

/-- The filesystem evolution of `main`'s loop (its `LoopRes.fs`
projection). -/
def processFS (files : List (List Char)) (fs : FS) : FS :=
  files.foldl (fun g f => (process_file g f).fs) fs

theorem mainStep_fs (acc : LoopRes) (fp : List Char) :
    (mainStep acc fp).fs = (process_file acc.fs fp).fs := by
  unfold mainStep
  by_cases hm : (process_file acc.fs fp).modified = true <;> simp [hm]

theorem mainLoop_fs (files : List (List Char)) :
    ∀ acc : LoopRes, (files.foldl mainStep acc).fs = processFS files acc.fs := by
  induction files with
  | nil => intro acc; rfl
  | cons fp files ih =>
    intro acc
    rw [List.foldl_cons, ih (mainStep acc fp)]
    show processFS files (mainStep acc fp).fs = _
    rw [mainStep_fs]
    rfl

theorem processFS_stable_all (files : List (List Char)) :
    ∀ fs p, (process_file fs p).fs = fs →
      (process_file (processFS files fs) p).fs = processFS files fs := by
  induction files with
  | nil => intro fs p h; exact h
  | cons f rest ih =>
    intro fs p h
    show (process_file (processFS rest ((process_file fs f).fs)) p).fs = _
    exact ih _ p (stable_preserved fs p f h)

theorem processFS_makes_stable (files : List (List Char)) :
    ∀ fs p, p ∈ files →
      (process_file (processFS files fs) p).fs = processFS files fs := by
  induction files with
  | nil => intro fs p hp; simp at hp
  | cons f rest ih =>
    intro fs p hp
    rcases List.mem_cons.mp hp with rfl | hp
    · show (process_file (processFS rest ((process_file fs p).fs)) p).fs = _
      exact processFS_stable_all rest _ p (process_file_stable fs p)
    · exact ih _ p hp

theorem processFS_id_of_stable (files : List (List Char)) :
    ∀ fs, (∀ p ∈ files, (process_file fs p).fs = fs) →
      processFS files fs = fs := by
  induction files with
  | nil => intro fs _; rfl
  | cons f rest ih =>
    intro fs h
    show processFS rest ((process_file fs f).fs) = fs
    rw [h f (List.mem_cons_self f rest)]
    exact ih fs (fun p hp => h p (List.mem_cons_of_mem f hp))

/-- C2: the rewrite is idempotent.  Running `replace_console_statements`
on its own output performs zero replacements and returns the text
unchanged; consequently running `main`'s whole per-file loop a second
time over the same file list leaves every file's content on disk exactly
as after the first run. -/
theorem rewrite_idempotent (s : List Char) (files : List (List Char))
    (fs : FS) :
    replace_console_statements ((replace_console_statements s).1)
        = ((replace_console_statements s).1, 0) ∧
    (mainLoop files ((mainLoop files fs).fs)).fs = (mainLoop files fs).fs := by
  constructor
  · exact replaceAll_fix CONSOLE_PATTERNS console_patterns_selfOK
      ((replace_console_statements s).1) 0
      (replaceAll_clears CONSOLE_PATTERNS console_patterns_selfOK
        console_patterns_pairwise s 0)
  · have h1 : (mainLoop files ((mainLoop files fs).fs)).fs
        = processFS files ((mainLoop files fs).fs) := mainLoop_fs files _
    have h2 : (mainLoop files fs).fs = processFS files fs := mainLoop_fs files _
    rw [h1, h2]
    exact processFS_id_of_stable files _
      (fun p hp => processFS_makes_stable files fs p hp)

/-- A directory entry as enumerated by `os.walk`: a plain file, a
listable subdirectory, or a subdirectory whose listing raises `OSError`.
The script calls `os.walk` with its default `onerror=None`, which
silently discards such errors. -/
inductive Entry where
  | file : List Char → Entry
  | dir : List Char → List Entry → Entry
  | badDir : List Char → Entry

/-- Model of `os.path.join(root, name)` for a relative `name`. -/
def pathJoin (p n : List Char) : List Char := p ++ '/' :: n

mutual

/-- The `(dirpath, filename)` pairs `os.walk` produces under one entry.
An unlistable directory (`badDir`) yields nothing and no error: that is
`os.walk`'s behaviour with the default `onerror=None`. -/
def walkEntry (p : List Char) : Entry → List (List Char × List Char)
  | .file n => [(p, n)]
  | .dir n ch => walkEntryList (pathJoin p n) ch
  | .badDir _ => []

/-- The `(dirpath, filename)` pairs `os.walk` produces under a listing. -/
def walkEntryList (p : List Char) : List Entry → List (List Char × List Char)
  | [] => []
  | e :: es => walkEntry p e ++ walkEntryList p es

end

/-- The filename filter of `find_typescript_files`:
`filename.endswith(('.ts', '.tsx')) and not filename.endswith('.d.ts')`. -/
def isTsFile (n : List Char) : Bool :=
  ((".ts".toList).isSuffixOf n || (".tsx".toList).isSuffixOf n)
    && !((".d.ts".toList).isSuffixOf n)

/-- Model of `find_typescript_files(root_dir)`.  `srcTree` is the recursive listing
of `<root>/src` when that directory exists; `os.walk` over a missing
directory yields nothing (the `OSError` is swallowed by the default
`onerror=None`), modelled by the `none` case. -/
def find_typescript_files (root : List Char) (srcTree : Option (List Entry)) :
    List (List Char) :=
  match srcTree with
  | none => []
  | some es =>
    ((walkEntryList (pathJoin root ("src".toList)) es).filter
      (fun pr => isTsFile pr.2)).map (fun pr => pathJoin pr.1 pr.2)

/-- Python string comparison (lexicographic by code point), as used by
`sorted(files)`. -/
def lexLe : List Char → List Char → Bool
  | [], _ => true
  | _ :: _, [] => false
  | a :: as, b :: bs => if a = b then lexLe as bs else decide (a < b)

def insertSorted (x : List Char) : List (List Char) → List (List Char)
  | [] => [x]
  | y :: ys => if lexLe x y then x :: y :: ys else y :: insertSorted x ys

/-- Python `sorted(files)` (stable insertion sort under `lexLe`). -/
def sortPaths : List (List Char) → List (List Char)
  | [] => []
  | x :: xs => insertSorted x (sortPaths xs)

/-- Model of `main()`: `root` stands for `os.getcwd()`; the walk of `<root>/src`
feeds the sorted file list into the per-file loop, and the returned
`LoopRes` carries everything the printed summary reports. -/
def mainRun (root : List Char) (srcTree : Option (List Entry)) (fs : FS) :
    LoopRes :=
  mainLoop (sortPaths (find_typescript_files root srcTree)) fs

/-- C5: the walker returns exactly the walked files under `<root>/src`
whose filename ends in `.ts` or `.tsx` but not in `.d.ts`. -/
theorem find_typescript_files_spec (root : List Char) (es : List Entry)
    (q : List Char) :
    q ∈ find_typescript_files root (some es) ↔
      ∃ d n, (d, n) ∈ walkEntryList (pathJoin root ("src".toList)) es ∧
        ((".ts".toList <:+ n ∨ ".tsx".toList <:+ n) ∧
          ¬ ".d.ts".toList <:+ n) ∧
        q = pathJoin d n := by
  unfold find_typescript_files
  rw [List.mem_map]
  constructor
  · rintro ⟨⟨d, n⟩, hmem, rfl⟩
    obtain ⟨hw, hf⟩ := List.mem_filter.mp hmem
    refine ⟨d, n, hw, ?_, rfl⟩
    simpa [isTsFile, ← Bool.not_eq_true, List.isSuffixOf_iff_suffix] using hf
  · rintro ⟨d, n, hw, hcond, rfl⟩
    refine ⟨(d, n), List.mem_filter.mpr ⟨hw, ?_⟩, rfl⟩
    simpa [isTsFile, ← Bool.not_eq_true, List.isSuffixOf_iff_suffix]
      using hcond

def fsEmpty : FS := fun _ => FileState.absent

/-- C7 counterexample: with the scan root's `src` directory missing, the
run is not a hard failure at all: `os.walk` yields nothing, `main`
processes zero files and still produces its normal summary (a report
over zero files), leaving the filesystem untouched. -/
theorem main_missing_src_counterexample :
    mainRun ("/repo".toList) none fsEmpty = ⟨fsEmpty, 0, 0, [], []⟩ := rfl

/-- C7 (amended): if the scan root's `src` directory does not exist,
`os.walk` silently yields no entries, so `main` completes normally with
an empty summary report and modifies nothing; no failure is surfaced. -/
theorem main_missing_src_amended (root : List Char) (fs : FS) :
    mainRun root none fs = ⟨fs, 0, 0, [], []⟩ := rfl

/-- C8 counterexample: a tree containing an unlistable directory walks to
exactly the same file list as the tree without it — the enumeration
error is silently dropped, not surfaced per-entry (the result type
carries no error entries at all). -/
theorem walk_bad_dir_counterexample :
    find_typescript_files ("/repo".toList)
        (some [Entry.badDir ("locked".toList), Entry.file ("a.ts".toList)])
      = find_typescript_files ("/repo".toList)
          (some [Entry.file ("a.ts".toList)]) := rfl

/-- C8 (amended): an unlistable directory contributes nothing to the
walk: no `(dirpath, filename)` entries and no error value; the caller
cannot distinguish it from the directory not being there. -/
theorem walk_bad_dir_amended (p n : List Char) (es : List Entry) :
    walkEntry p (Entry.badDir n) = [] ∧
    walkEntryList p (Entry.badDir n :: es) = walkEntryList p es := by
  exact ⟨rfl, by simp [walkEntryList, walkEntry]⟩
